import Mathlib

/-!
Shallow embedding of the indicator/scoring core of the binance-futures-helper
dashboard, together with theorems settling the specification claims.

Numeric values are modelled by the rationals: the source performs plain
JavaScript float arithmetic on values obtained by parseFloat of exchange
strings; the claims under verification are about exact structural behaviour
(guards, clamps, windowing, weighting), for which exact rational arithmetic
is the faithful idealisation.  NaN/Infinity guards in the source are
commented at their translation sites; in this model every parsed number is
a rational, so the NaN-skip branches are identities.
-/

set_option maxHeartbeats 1000000

/-- One OHLCV candle.  The source stores a Kline as a positional array
(k[0] open time ms, k[1] open, k[2] high, k[3] low, k[4] close,
k[5] volume); the numeric string entries are modelled directly as the
rationals parseFloat would produce. -/
structure Kline where
  openTime : ℤ
  openP : ℚ
  high : ℚ
  low : ℚ
  close : ℚ
  volume : ℚ
deriving DecidableEq, Repr

instance : Inhabited Kline := ⟨⟨0, 0, 0, 0, 0, 0⟩⟩

/-- JavaScript arr.slice(-n) for n greater than 0: the last n elements
(the whole list when n exceeds the length). -/
def sliceLast {α : Type} (l : List α) (n : ℕ) : List α := l.drop (l.length - n)

/-- JavaScript Math.max(...l) on a nonempty list (the empty case, which JS
maps to minus infinity, is never reached behind the guards of the source). -/
def listMax : List ℚ → ℚ
  | [] => 0
  | x :: xs => xs.foldl max x

/-- JavaScript Math.min(...l) on a nonempty list. -/
def listMin : List ℚ → ℚ
  | [] => 0
  | x :: xs => xs.foldl min x

theorem init_le_foldl_max (l : List ℚ) (a : ℚ) : a ≤ l.foldl max a := by
  induction l generalizing a with
  | nil => simp
  | cons b t ih => exact le_trans (le_max_left a b) (ih (max a b))

theorem mem_le_foldl_max (l : List ℚ) (a x : ℚ) (hx : x ∈ l) : x ≤ l.foldl max a := by
  induction l generalizing a with
  | nil => cases hx
  | cons b t ih =>
    rcases List.mem_cons.mp hx with h | h
    · subst h; exact le_trans (le_max_right a x) (init_le_foldl_max t (max a x))
    · exact ih (max a b) h

theorem foldl_max_mem (l : List ℚ) (a : ℚ) : l.foldl max a = a ∨ l.foldl max a ∈ l := by
  induction l generalizing a with
  | nil => left; rfl
  | cons b t ih =>
    rcases ih (max a b) with h | h
    · rcases max_choice a b with hm | hm
      · left; rw [List.foldl_cons, h, hm]
      · right; rw [List.foldl_cons, h, hm]; exact List.mem_cons_self b t
    · right; exact List.mem_cons_of_mem b h

theorem foldl_min_le_init (l : List ℚ) (a : ℚ) : l.foldl min a ≤ a := by
  induction l generalizing a with
  | nil => simp
  | cons b t ih => exact le_trans (ih (min a b)) (min_le_left a b)

theorem foldl_min_le_mem (l : List ℚ) (a x : ℚ) (hx : x ∈ l) : l.foldl min a ≤ x := by
  induction l generalizing a with
  | nil => cases hx
  | cons b t ih =>
    rcases List.mem_cons.mp hx with h | h
    · subst h; exact le_trans (foldl_min_le_init t (min a x)) (min_le_right a x)
    · exact ih (min a b) h

theorem foldl_min_mem (l : List ℚ) (a : ℚ) : l.foldl min a = a ∨ l.foldl min a ∈ l := by
  induction l generalizing a with
  | nil => left; rfl
  | cons b t ih =>
    rcases ih (min a b) with h | h
    · rcases min_choice a b with hm | hm
      · left; rw [List.foldl_cons, h, hm]
      · right; rw [List.foldl_cons, h, hm]; exact List.mem_cons_self b t
    · right; exact List.mem_cons_of_mem b h

theorem le_listMax (l : List ℚ) (x : ℚ) (hx : x ∈ l) : x ≤ listMax l := by
  cases l with
  | nil => cases hx
  | cons a t =>
    rcases List.mem_cons.mp hx with h | h
    · subst h; exact init_le_foldl_max t x
    · exact mem_le_foldl_max t a x h

theorem listMax_mem (l : List ℚ) (h : l ≠ []) : listMax l ∈ l := by
  cases l with
  | nil => exact absurd rfl h
  | cons a t =>
    rcases foldl_max_mem t a with hm | hm
    · rw [listMax, hm]; exact List.mem_cons_self a t
    · exact List.mem_cons_of_mem a hm

theorem listMin_le (l : List ℚ) (x : ℚ) (hx : x ∈ l) : listMin l ≤ x := by
  cases l with
  | nil => cases hx
  | cons a t =>
    rcases List.mem_cons.mp hx with h | h
    · subst h; exact foldl_min_le_init t x
    · exact foldl_min_le_mem t a x h

theorem listMin_mem (l : List ℚ) (h : l ≠ []) : listMin l ∈ l := by
  cases l with
  | nil => exact absurd rfl h
  | cons a t =>
    rcases foldl_min_mem t a with hm | hm
    · rw [listMin, hm]; exact List.mem_cons_self a t
    · exact List.mem_cons_of_mem a hm

/-! ### RSI (calculateRSI in utils/analysis) -/

/-- Consecutive deltas: prices.slice(1).map((price, i) => price - prices[i]). -/
def deltasOf : List ℚ → List ℚ
  | [] => []
  | [_] => []
  | a :: b :: rest => (b - a) :: deltasOf (b :: rest)

/-- Gains list: deltas.map(d => d > 0 ? d : 0). -/
def gainsOf (prices : List ℚ) : List ℚ :=
  (deltasOf prices).map (fun d => if 0 < d then d else 0)

/-- Losses list: deltas.map(d => d < 0 ? -d : 0). -/
def lossesOf (prices : List ℚ) : List ℚ :=
  (deltasOf prices).map (fun d => if d < 0 then -d else 0)

/-- Windowed average gain: gains.slice(-period).reduce(+)/period. -/
def rsiAvgGain (prices : List ℚ) (period : ℕ) : ℚ :=
  (sliceLast (gainsOf prices) period).sum / (period : ℚ)

/-- Windowed average loss: losses.slice(-period).reduce(+)/period. -/
def rsiAvgLoss (prices : List ℚ) (period : ℕ) : ℚ :=
  (sliceLast (lossesOf prices) period).sum / (period : ℚ)

/-- RSI over the trailing window of simple averaged gains and losses.
Returns the neutral 50 on insufficient data and 100 when the average loss
is exactly zero. -/
def calculateRSI (prices : List ℚ) (period : ℕ := 9) : ℚ :=
  if prices.length < period + 1 then 50
  else if rsiAvgLoss prices period = 0 then 100
  else 100 - 100 / (1 + rsiAvgGain prices period / rsiAvgLoss prices period)

/-! ### ATR (calculateATR in utils/analysis) -/

/-- True range of a candle against the previous close. -/
def trueRange (prev cur : Kline) : ℚ :=
  max (cur.high - cur.low) (max |cur.high - prev.close| |cur.low - prev.close|)

/-- True ranges of consecutive candle pairs (the loop from i = 1). -/
def trueRanges : List Kline → List ℚ
  | [] => []
  | [_] => []
  | a :: b :: rest => trueRange a b :: trueRanges (b :: rest)

/-- ATR: simple mean of the most recent period true ranges, 0 on
insufficient data; the source also carries a branch averaging fewer than
period true ranges. -/
def calculateATR (klines : List Kline) (period : ℕ := 14) : ℚ :=
  if klines.length < period + 1 then 0
  else
    let trs := trueRanges klines
    if trs.length < period then trs.sum / (trs.length : ℚ)
    else (sliceLast trs period).sum / (period : ℚ)

theorem trueRanges_length (l : List Kline) : (trueRanges l).length = l.length - 1 := by
  induction l with
  | nil => rfl
  | cons a t ih =>
    cases t with
    | nil => rfl
    | cons b r =>
      simp only [trueRanges, List.length_cons] at ih ⊢
      omega

theorem deltasOf_length (l : List ℚ) : (deltasOf l).length = l.length - 1 := by
  induction l with
  | nil => rfl
  | cons a t ih =>
    cases t with
    | nil => rfl
    | cons b r =>
      simp only [deltasOf, List.length_cons] at ih ⊢
      omega

theorem gains_nonneg (prices : List ℚ) (x : ℚ) (hx : x ∈ gainsOf prices) : 0 ≤ x := by
  rcases List.mem_map.mp hx with ⟨d, _, hd⟩
  subst hd
  split <;> [linarith; exact le_refl 0]

theorem losses_nonneg (prices : List ℚ) (x : ℚ) (hx : x ∈ lossesOf prices) : 0 ≤ x := by
  rcases List.mem_map.mp hx with ⟨d, _, hd⟩
  subst hd
  split <;> [linarith; exact le_refl 0]

theorem rsiAvgGain_nonneg (prices : List ℚ) (period : ℕ) : 0 ≤ rsiAvgGain prices period := by
  apply div_nonneg _ (by positivity)
  apply List.sum_nonneg
  intro x hx
  exact gains_nonneg prices x (List.drop_subset _ _ hx)

theorem rsiAvgLoss_nonneg (prices : List ℚ) (period : ℕ) : 0 ≤ rsiAvgLoss prices period := by
  apply div_nonneg _ (by positivity)
  apply List.sum_nonneg
  intro x hx
  exact losses_nonneg prices x (List.drop_subset _ _ hx)

/-- C8: calculateRSI always yields a value in [0,100]; it returns exactly 50
when fewer than period+1 prices are supplied, and exactly 100 whenever the
windowed average loss is exactly zero (the branch that guards division by
zero), as for any constant price series. -/
theorem rsi_range_and_edges (prices : List ℚ) (period : ℕ) (hp : 1 ≤ period) :
    (0 ≤ calculateRSI prices period ∧ calculateRSI prices period ≤ 100) ∧
    (prices.length < period + 1 → calculateRSI prices period = 50) ∧
    (period + 1 ≤ prices.length → rsiAvgLoss prices period = 0 →
      calculateRSI prices period = 100) := by
  refine ⟨?_, ?_, ?_⟩
  · unfold calculateRSI
    split
    · norm_num
    · split
      · norm_num
      · rename_i hlen hz
        have hG := rsiAvgGain_nonneg prices period
        have hL := rsiAvgLoss_nonneg prices period
        have hLpos : 0 < rsiAvgLoss prices period := lt_of_le_of_ne hL (Ne.symm hz)
        have hrs : 0 ≤ rsiAvgGain prices period / rsiAvgLoss prices period :=
          div_nonneg hG hL
        have h1 : (0:ℚ) < 1 + rsiAvgGain prices period / rsiAvgLoss prices period := by linarith
        have hfrac0 : 0 ≤ 100 / (1 + rsiAvgGain prices period / rsiAvgLoss prices period) := by
          positivity
        have hfrac100 : 100 / (1 + rsiAvgGain prices period / rsiAvgLoss prices period) ≤ 100 :=
          div_le_self (by norm_num) (by linarith)
        constructor <;> linarith
  · intro h
    unfold calculateRSI
    rw [if_pos h]
  · intro hlen hzero
    unfold calculateRSI
    rw [if_neg (by omega), if_pos hzero]

def c8prices : List ℚ := List.replicate 10 50

/-- Witness for C8 at the constant series [50,...,50] with period 9. -/
theorem rsi_range_and_edges_witness :
    (1 ≤ 9) ∧ (0 ≤ calculateRSI c8prices 9 ∧ calculateRSI c8prices 9 ≤ 100) ∧
      calculateRSI c8prices 9 = 100 :=
  ⟨by decide, (rsi_range_and_edges c8prices 9 (by decide)).1, by
    norm_num [calculateRSI, rsiAvgLoss, lossesOf, deltasOf, gainsOf, sliceLast, c8prices,
      List.replicate]⟩

/-- C7 (amended form): calculateATR returns 0 whenever fewer than period+1
candles are supplied; with at least period+1 candles there are always at
least period true ranges, so it returns the mean of the most recent period
true ranges and the fewer-than-period averaging branch is unreachable. -/
theorem atr_guard_and_mean (klines : List Kline) (period : ℕ) (hp : 1 ≤ period) :
    (klines.length < period + 1 → calculateATR klines period = 0) ∧
    (period + 1 ≤ klines.length →
      period ≤ (trueRanges klines).length ∧
      calculateATR klines period =
        (sliceLast (trueRanges klines) period).sum / (period : ℚ)) := by
  constructor
  · intro h
    unfold calculateATR
    rw [if_pos h]
  · intro h
    have hlen : (trueRanges klines).length = klines.length - 1 := trueRanges_length klines
    have hge : period ≤ (trueRanges klines).length := by omega
    refine ⟨hge, ?_⟩
    unfold calculateATR
    rw [if_neg (by omega)]
    simp only
    rw [if_neg (by omega)]

def c7klines : List Kline :=
  [⟨0, 100, 110, 100, 105, 1⟩, ⟨3600000, 105, 112, 102, 108, 1⟩, ⟨7200000, 108, 118, 106, 110, 1⟩]

/-- Witness for C7 with three candles and period 2. -/
theorem atr_guard_and_mean_witness :
    (2 + 1 ≤ c7klines.length) ∧
    (2 ≤ (trueRanges c7klines).length ∧
      calculateATR c7klines 2 = (sliceLast (trueRanges c7klines) 2).sum / (2 : ℚ)) :=
  ⟨by norm_num [c7klines], (atr_guard_and_mean c7klines 2 (by norm_num)).2
    (by norm_num [c7klines])⟩

def c7fewKlines : List Kline :=
  [⟨0, 100, 110, 100, 105, 1⟩, ⟨3600000, 105, 112, 102, 108, 1⟩]

/-- Counterexample for C7 as stated: with two candles there is exactly one
true range, fewer than period = 14, yet calculateATR returns 0 and not the
mean of the existing true ranges (which is 10). -/
theorem atr_few_trueRanges_cex :
    (trueRanges c7fewKlines).length < 14 ∧
    calculateATR c7fewKlines 14 ≠
      (trueRanges c7fewKlines).sum / ((trueRanges c7fewKlines).length : ℚ) := by
  constructor
  · norm_num [c7fewKlines, trueRanges]
  · norm_num [c7fewKlines, trueRanges, trueRange, calculateATR, abs]

/-! ### Moving averages (calculateMA, calculateMAWithTime, calculateVWMAWithTime) -/

/-- One point of a moving-average chart series; time is the candle open
time in epoch seconds (Math.floor of milliseconds over 1000). -/
structure TimeValue where
  time : ℤ
  value : ℚ
deriving DecidableEq, Repr

/-- SMA per index: null for the first period-1 slots, then the arithmetic
mean of prices.slice(i - period + 1, i + 1); a too-short input maps every
slot to null. -/
def calculateMA (prices : List ℚ) (period : ℕ := 200) : List (Option ℚ) :=
  if prices.length < period then prices.map (fun _ => none)
  else
    (List.range prices.length).map (fun i =>
      if i + 1 < period then none
      else some (((prices.take (i + 1)).drop (i + 1 - period)).sum / (period : ℚ)))

/-- SMA series with candle timestamps: the non-null SMA entries paired with
Math.floor(klines[i][0] / 1000). -/
def calculateMAWithTime (klines : List Kline) (period : ℕ := 200) : List TimeValue :=
  if klines.length < period then []
  else
    (klines.zip (calculateMA (klines.map (fun k => k.close)) period)).filterMap
      (fun p => p.2.map (fun mv => ⟨Int.fdiv p.1.openTime 1000, mv⟩))

/-- VWMA series: per window, sum of close times volume over sum of volume;
a zero-volume window emits no entry. -/
def calculateVWMAWithTime (klines : List Kline) (period : ℕ := 100) : List TimeValue :=
  if klines.length < period then []
  else
    klines.enum.filterMap (fun p =>
      if p.1 + 1 < period then none
      else
        let window := (klines.take (p.1 + 1)).drop (p.1 + 1 - period)
        let priceVolumeSum := (window.map (fun k => k.close * k.volume)).sum
        let volumeSum := (window.map (fun k => k.volume)).sum
        if 0 < volumeSum then some ⟨Int.fdiv p.2.openTime 1000, priceVolumeSum / volumeSum⟩
        else none)

theorem sum_map_volume_const (l : List Kline) (v : ℚ) (h : ∀ k ∈ l, k.volume = v) :
    (l.map (fun k => k.volume)).sum = l.length * v := by
  induction l with
  | nil => simp
  | cons a t ih =>
    have ha := h a (List.mem_cons_self a t)
    have ht := ih (fun k hk => h k (List.mem_cons_of_mem a hk))
    simp only [List.map_cons, List.sum_cons, ha, ht, List.length_cons]
    push_cast
    ring

theorem sum_map_close_mul_volume_const (l : List Kline) (v : ℚ) (h : ∀ k ∈ l, k.volume = v) :
    (l.map (fun k => k.close * k.volume)).sum = (l.map (fun k => k.close)).sum * v := by
  induction l with
  | nil => simp
  | cons a t ih =>
    have ha := h a (List.mem_cons_self a t)
    have ht := ih (fun k hk => h k (List.mem_cons_of_mem a hk))
    simp only [List.map_cons, List.sum_cons, ha, ht]
    ring

theorem filterMap_congr_mem {α β : Type} (l : List α) (f g : α → Option β)
    (h : ∀ a ∈ l, f a = g a) : l.filterMap f = l.filterMap g := by
  induction l with
  | nil => rfl
  | cons a t ih =>
    rw [List.filterMap_cons, List.filterMap_cons, h a (List.mem_cons_self a t),
      ih (fun x hx => h x (List.mem_cons_of_mem a hx))]

/-- C9: with the same strictly positive volume on every candle and at least
period candles, the VWMA series coincides entry for entry (same timestamps,
same values) with the SMA series of the same period. -/
theorem vwma_eq_sma_uniform (klines : List Kline) (period : ℕ) (v : ℚ)
    (hp : 1 ≤ period) (hlen : period ≤ klines.length)
    (hv : ∀ k ∈ klines, k.volume = v) (hv0 : 0 < v) :
    calculateVWMAWithTime klines period = calculateMAWithTime klines period := by
  have hng : ¬ klines.length < period := by omega
  have hngm : ¬ (klines.map (fun k => k.close)).length < period := by
    rw [List.length_map]; omega
  rw [calculateVWMAWithTime, calculateMAWithTime, if_neg hng, if_neg hng]
  rw [calculateMA, if_neg hngm, List.length_map]
  rw [List.zip_map_right]
  have hswap : klines.zip (List.range klines.length) =
      ((List.range klines.length).zip klines).map Prod.swap := (List.zip_swap _ _).symm
  rw [hswap, ← List.enum_eq_zip_range, List.map_map, List.filterMap_map]
  apply filterMap_congr_mem
  rintro ⟨i, k⟩ hmem
  have hi : i < klines.length := by
    have := List.of_mem_zip (by rwa [List.enum_eq_zip_range] at hmem)
    exact List.mem_range.mp this.1
  simp only [Function.comp, Prod.map, Prod.swap, id]
  by_cases hip : i + 1 < period
  · simp [hip]
  · rw [if_neg hip, if_neg hip]
    have hw : ((klines.map (fun k => k.close)).take (i + 1)).drop (i + 1 - period) =
        (((klines.take (i + 1)).drop (i + 1 - period)).map (fun k => k.close)) := by
      rw [← List.map_take, ← List.map_drop]
    rw [hw]
    set w := (klines.take (i + 1)).drop (i + 1 - period) with hwdef
    have hsub : ∀ x ∈ w, x ∈ klines := by
      intro x hx
      exact List.take_subset _ _ (List.drop_subset _ _ hx)
    have hwv : ∀ x ∈ w, x.volume = v := fun x hx => hv x (hsub x hx)
    have hwlen : w.length = period := by
      rw [hwdef, List.length_drop, List.length_take]
      omega
    have hvs : (w.map (fun k => k.volume)).sum = (period : ℚ) * v := by
      rw [sum_map_volume_const w v hwv, hwlen]
    have hpos : (0 : ℚ) < (period : ℚ) * v := by
      apply mul_pos _ hv0
      exact_mod_cast hp
    have hpvs : (w.map (fun k => k.close * k.volume)).sum =
        (w.map (fun k => k.close)).sum * v := sum_map_close_mul_volume_const w v hwv
    rw [hvs, if_pos hpos, hpvs]
    have hval : (w.map (fun k => k.close)).sum * v / ((period : ℚ) * v) =
        (w.map (fun k => k.close)).sum / (period : ℚ) := by
      rw [mul_comm ((w.map (fun k => k.close)).sum) v, mul_comm ((period : ℚ)) v]
      exact mul_div_mul_left _ _ (ne_of_gt hv0)
    rw [hval]
    rfl

def c9klines : List Kline :=
  [⟨0, 100, 105, 95, 100, 10⟩, ⟨3600000, 100, 106, 96, 102, 10⟩]

/-- Witness for C9: two candles of volume 10 with period 1. -/
theorem vwma_eq_sma_uniform_witness :
    (1 ≤ 1) ∧ (1 ≤ c9klines.length) ∧ ((0:ℚ) < 10) ∧
      calculateVWMAWithTime c9klines 1 = calculateMAWithTime c9klines 1 :=
  ⟨le_refl 1, by norm_num [c9klines], by norm_num,
    vwma_eq_sma_uniform c9klines 1 10 (le_refl 1) (by norm_num [c9klines])
      (by intro k hk; fin_cases hk <;> rfl) (by norm_num)⟩

/-! ### Support/resistance (calculateSupportResistance) and stop loss -/

/-- Support/resistance snapshot of the current analysis module (the newer
utils/analysis variant, which carries no short-term fields). -/
structure SupportResistance where
  resistance : ℚ
  support : ℚ
  pivot : ℚ
  resistance_strength : ℚ
  support_strength : ℚ
  current_price : ℚ
deriving DecidableEq, Repr

/-- Support/resistance over the trailing lookback window: resistance is the
max of the highs exceeding 98 percent of the average high (strength is the
qualifying fraction as a percentage), symmetrically for support at 102
percent of the average low; pivot is the mean of the previous candle high,
low and close. -/
def calculateSupportResistance (klines : List Kline) (lookbackPeriod : ℕ := 20) :
    SupportResistance :=
  if klines.length < lookbackPeriod then ⟨0, 0, 0, 0, 0, 0⟩
  else
    let recentKlines := sliceLast klines lookbackPeriod
    let highs := recentKlines.map (fun k => k.high)
    let lows := recentKlines.map (fun k => k.low)
    let closes := recentKlines.map (fun k => k.close)
    let currentPrice := closes.getLastD 0
    let maxHigh := listMax highs
    let avgHigh := highs.sum / (highs.length : ℚ)
    let resistanceCandidates := highs.filter (fun h => decide (avgHigh * 0.98 < h))
    let resistance := if resistanceCandidates.length ≠ 0 then listMax resistanceCandidates
      else maxHigh
    let resistanceStrength := if resistanceCandidates.length ≠ 0 then
      (resistanceCandidates.length : ℚ) / (highs.length : ℚ) * 100 else 50
    let minLow := listMin lows
    let avgLow := lows.sum / (lows.length : ℚ)
    let supportCandidates := lows.filter (fun l => decide (l < avgLow * 1.02))
    let support := if supportCandidates.length ≠ 0 then listMin supportCandidates else minLow
    let supportStrength := if supportCandidates.length ≠ 0 then
      (supportCandidates.length : ℚ) / (lows.length : ℚ) * 100 else 50
    let pivot := if 2 ≤ recentKlines.length then
        let prev := recentKlines.getD (recentKlines.length - 2) default
        (prev.high + prev.low + prev.close) / 3
      else currentPrice
    ⟨resistance, support, pivot, resistanceStrength, supportStrength, currentPrice⟩

namespace Legacy

/-- Support/resistance snapshot of the older analysis variant, which also
carries the short-term raw max/min levels (this is the record shape the
committed types module declares). -/
structure SupportResistance where
  resistance : ℚ
  support : ℚ
  pivot : ℚ
  resistance_strength : ℚ
  support_strength : ℚ
  current_price : ℚ
  short_term_resistance : ℚ
  short_term_support : ℚ
deriving DecidableEq, Repr

/-- The older calculateSupportResistance: identical to the newer one on the
shared fields and additionally the short-term resistance/support, taken as
the raw max of highs and raw min of lows over the most recent
min(10, available) candles of the whole input, with no touch-frequency
filter. -/
def calculateSupportResistance (klines : List Kline) (lookbackPeriod : ℕ := 20) :
    SupportResistance :=
  if klines.length < lookbackPeriod then ⟨0, 0, 0, 0, 0, 0, 0, 0⟩
  else
    let recentKlines := sliceLast klines lookbackPeriod
    let highs := recentKlines.map (fun k => k.high)
    let lows := recentKlines.map (fun k => k.low)
    let closes := recentKlines.map (fun k => k.close)
    let currentPrice := closes.getLastD 0
    let maxHigh := listMax highs
    let avgHigh := highs.sum / (highs.length : ℚ)
    let resistanceCandidates := highs.filter (fun h => decide (avgHigh * 0.98 < h))
    let resistance := if resistanceCandidates.length ≠ 0 then listMax resistanceCandidates
      else maxHigh
    let resistanceStrength := if resistanceCandidates.length ≠ 0 then
      (resistanceCandidates.length : ℚ) / (highs.length : ℚ) * 100 else 50
    let minLow := listMin lows
    let avgLow := lows.sum / (lows.length : ℚ)
    let supportCandidates := lows.filter (fun l => decide (l < avgLow * 1.02))
    let support := if supportCandidates.length ≠ 0 then listMin supportCandidates else minLow
    let supportStrength := if supportCandidates.length ≠ 0 then
      (supportCandidates.length : ℚ) / (lows.length : ℚ) * 100 else 50
    let pivot := if 2 ≤ recentKlines.length then
        let prev := recentKlines.getD (recentKlines.length - 2) default
        (prev.high + prev.low + prev.close) / 3
      else currentPrice
    let shortTermPeriod := min 10 klines.length
    let shortTermKlines := sliceLast klines shortTermPeriod
    let shortTermResistance := listMax (shortTermKlines.map (fun k => k.high))
    let shortTermSupport := listMin (shortTermKlines.map (fun k => k.low))
    ⟨resistance, support, pivot, resistanceStrength, supportStrength, currentPrice,
      shortTermResistance, shortTermSupport⟩

end Legacy

theorem sliceLast_length {α : Type} (l : List α) (n : ℕ) :
    (sliceLast l n).length = min n l.length := by
  rw [sliceLast, List.length_drop]
  omega

/-- C3: on every accepted candle list (at least lookback candles, positive
lookback) the older calculateSupportResistance fills the short-term fields
from the window of the most recent min(10, available) candles: the
short-term resistance is the raw maximum of the highs of that window and
the short-term support is the raw minimum of its lows, with no
touch-frequency filter applied. -/
theorem supportResistance_short_term_window (klines : List Kline) (lookback : ℕ)
    (h1 : 1 ≤ lookback) (h2 : lookback ≤ klines.length) :
    ((Legacy.calculateSupportResistance klines lookback).short_term_resistance ∈
        (sliceLast klines (min 10 klines.length)).map (fun k => k.high) ∧
      ∀ x ∈ (sliceLast klines (min 10 klines.length)).map (fun k => k.high),
        x ≤ (Legacy.calculateSupportResistance klines lookback).short_term_resistance) ∧
    ((Legacy.calculateSupportResistance klines lookback).short_term_support ∈
        (sliceLast klines (min 10 klines.length)).map (fun k => k.low) ∧
      ∀ x ∈ (sliceLast klines (min 10 klines.length)).map (fun k => k.low),
        (Legacy.calculateSupportResistance klines lookback).short_term_support ≤ x) := by
  have hne : sliceLast klines (min 10 klines.length) ≠ [] := by
    intro h
    have hlen := congrArg List.length h
    rw [sliceLast_length] at hlen
    simp only [List.length_nil] at hlen
    omega
  have hstr : (Legacy.calculateSupportResistance klines lookback).short_term_resistance =
      listMax ((sliceLast klines (min 10 klines.length)).map (fun k => k.high)) := by
    rw [Legacy.calculateSupportResistance, if_neg (by omega)]
  have hsts : (Legacy.calculateSupportResistance klines lookback).short_term_support =
      listMin ((sliceLast klines (min 10 klines.length)).map (fun k => k.low)) := by
    rw [Legacy.calculateSupportResistance, if_neg (by omega)]
  have hneH : (sliceLast klines (min 10 klines.length)).map (fun k => k.high) ≠ [] := by
    simpa using hne
  have hneL : (sliceLast klines (min 10 klines.length)).map (fun k => k.low) ≠ [] := by
    simpa using hne
  refine ⟨⟨?_, ?_⟩, ?_, ?_⟩
  · rw [hstr]; exact listMax_mem _ hneH
  · intro x hx; rw [hstr]; exact le_listMax _ x hx
  · rw [hsts]; exact listMin_mem _ hneL
  · intro x hx; rw [hsts]; exact listMin_le _ x hx

def c3klines : List Kline :=
  (List.range 20).map (fun i => ⟨(i : ℤ) * 3600000, 100, 100 + (i : ℚ), 90 + (i : ℚ), 95 + (i : ℚ), 10⟩)

/-- Witness for C3 on a 20-candle list with the default lookback of 20. -/
theorem supportResistance_short_term_window_witness :
    (1 ≤ 20) ∧ (20 ≤ c3klines.length) ∧
    (Legacy.calculateSupportResistance c3klines 20).short_term_resistance ∈
      (sliceLast c3klines (min 10 c3klines.length)).map (fun k => k.high) :=
  ⟨by norm_num, by decide,
    (supportResistance_short_term_window c3klines 20 (by norm_num) (by decide)).1.1⟩

/-- Position side of a stop-loss computation. -/
inductive PositionType
  | short
  | long
deriving DecidableEq, Repr

/-- Stop-loss summary record.  The ratio field is named risk_reward here;
in the source it carries the suffix ratio spelled out. -/
structure StopLossInfo where
  stop_loss : ℚ
  target_price : ℚ
  risk_reward : ℚ
  risk_percent : ℚ
  reward_percent : ℚ
deriving DecidableEq, Repr

/-- ATR-hybrid stop-loss: on the short side the stop is the further of
resistance times 1.02 and current price plus 1.5 ATR; the target sits just
above support; the ratio is reward over risk when both legs are positive
and 0 otherwise. -/
def calculateStopLoss (supportResistance : SupportResistance)
    (positionType : PositionType := .short) (atr : ℚ := 0) : StopLossInfo :=
  let cp := supportResistance.current_price
  let resistance := supportResistance.resistance
  let support := supportResistance.support
  match positionType with
  | .short =>
    let stopLoss := max (resistance * 1.02) (cp + atr * 1.5)
    let targetPrice := support * 1.01
    let risk := stopLoss - cp
    let reward := cp - targetPrice
    ⟨stopLoss, targetPrice, if 0 < risk ∧ 0 < reward then reward / risk else 0,
      (stopLoss - cp) / cp * 100, (cp - targetPrice) / cp * 100⟩
  | .long =>
    let stopLoss := min (support * 0.98) (cp - atr * 1.5)
    let targetPrice := resistance * 0.99
    let risk := cp - stopLoss
    let reward := targetPrice - cp
    ⟨stopLoss, targetPrice, if 0 < risk ∧ 0 < reward then reward / risk else 0,
      (cp - stopLoss) / cp * 100, (targetPrice - cp) / cp * 100⟩

def c6klines : List Kline := List.replicate 20 ⟨0, 100, 105, 95, 100, 10⟩

theorem c6_supportResistance_eval :
    calculateSupportResistance c6klines 20 = ⟨105, 95, 100, 100, 100, 100⟩ := by
  norm_num [c6klines, calculateSupportResistance, sliceLast, listMax, listMin,
    List.replicate, List.getLastD, List.getLast, List.getD]

/-- C6: for every support/resistance snapshot and ATR, the short-side stop
is max(resistance times 1.02, current price plus 1.5 ATR), the target is
support times 1.01, and the risk/reward ratio is reward over risk exactly
when both legs are strictly positive and 0 otherwise; on 20 identical bars
with close 100, high 105, low 95 and ATR 10 the stop is 115 and the target
is 95.95. -/
theorem stopLoss_short_policy :
    (∀ (sr : SupportResistance) (atr : ℚ),
      (calculateStopLoss sr .short atr).stop_loss =
        max (sr.resistance * 1.02) (sr.current_price + atr * 1.5) ∧
      (calculateStopLoss sr .short atr).target_price = sr.support * 1.01 ∧
      (calculateStopLoss sr .short atr).risk_reward =
        (if 0 < (calculateStopLoss sr .short atr).stop_loss - sr.current_price ∧
            0 < sr.current_price - (calculateStopLoss sr .short atr).target_price
         then (sr.current_price - (calculateStopLoss sr .short atr).target_price) /
            ((calculateStopLoss sr .short atr).stop_loss - sr.current_price)
         else 0)) ∧
    ((calculateStopLoss (calculateSupportResistance c6klines 20) .short 10).stop_loss = 115 ∧
      (calculateStopLoss (calculateSupportResistance c6klines 20) .short 10).target_price =
        95.95) := by
  constructor
  · intro sr atr
    exact ⟨rfl, rfl, rfl⟩
  · rw [c6_supportResistance_eval]
    norm_num [calculateStopLoss]

/-! ### Funding-period inference (calculateFundingPeriod) -/

/-- Funding metadata for one symbol, as held in the funding dictionary. -/
structure FundingInfo where
  lastFundingRate : ℚ
  nextFundingTime : ℤ
  fundingIntervalHours : Option ℚ
deriving DecidableEq, Repr

/-- Funding-period inference in hours.  When no explicit positive interval
is supplied and the next funding time is nonzero, the source reads the
wall clock through Date.now(); that ambient read is made an explicit
argument now (in milliseconds) of the embedding. -/
def calculateFundingPeriod (nextFundingTime : ℤ) (fundingIntervalHours : Option ℚ)
    (now : ℤ) : ℚ :=
  if 0 < fundingIntervalHours.getD 0 then fundingIntervalHours.getD 0
  else if nextFundingTime = 0 then 8
  else
    let hoursUntilNext : ℚ := ((nextFundingTime : ℚ) - (now : ℚ)) / 3600000
    if 0 < hoursUntilNext ∧ hoursUntilNext ≤ 1.5 then 1
    else if 1.5 < hoursUntilNext ∧ hoursUntilNext ≤ 4.5 then 4
    else 8

/-- Hourly funding rate: the raw rate divided by the inferred period, 0 for
a zero raw rate. -/
def calculateHourlyFundingRate (lastFundingRate : ℚ) (nextFundingTime : ℤ)
    (fundingIntervalHours : Option ℚ) (now : ℤ) : ℚ :=
  if lastFundingRate = 0 then 0
  else lastFundingRate / calculateFundingPeriod nextFundingTime fundingIntervalHours now

/-! ### Day and hour seasonality (utils/hourlyPattern) -/

/-- Epoch seconds of the candle open: Math.floor(k[0] / 1000). -/
def openTimeSec (k : Kline) : ℤ := Int.fdiv k.openTime 1000

/-- getUTCHours of the open time. -/
def utcHourOf (k : Kline) : ℤ := Int.emod (Int.fdiv (openTimeSec k) 3600) 24

/-- Korea-standard-time hour: (utc + 9) mod 24. -/
def kstHourOf (k : Kline) : ℤ := Int.emod (utcHourOf k + 9) 24

/-- Open time shifted to KST seconds. -/
def kstTimeOf (k : Kline) : ℤ := openTimeSec k + 9 * 3600

/-- The source groups candles by a KST year-month-day string key; the key
is represented here by the KST epoch-day number, which induces the same
partition into KST calendar days. -/
def dateKeyOf (k : Kline) : ℤ := Int.fdiv (kstTimeOf k) 86400

/-- getUTCDay of the KST-shifted date (0 = Sunday); epoch day 0 was a
Thursday, hence the offset 4. -/
def kstDayOfWeekOf (k : Kline) : ℤ := Int.emod (dateKeyOf k + 4) 7

/-- One weekday-times-hour cell of the pattern. -/
structure DayHourData where
  dayOfWeek : ℤ
  hour : ℕ
  avgChange : ℚ
  totalCount : ℕ
deriving DecidableEq, Repr

def defaultDayHourData : DayHourData := ⟨0, 0, 0, 0⟩

/-- The first 09:00 KST candle of the date group d (Map group in klines
order, then find of hour 9). -/
def nineAMOf (klines : List Kline) (d : ℤ) : Option Kline :=
  (klines.filter (fun k => dateKeyOf k == d)).find? (fun k => kstHourOf k == 9)

/-- All percentage deviations from the 09:00 reference collected into the
cell (day, hour).  The source pushes these grouped by date key first; the
resulting multiset per cell, and hence the cell mean and count, is the
same. -/
def dayHourChanges (klines : List Kline) (day : ℤ) (hour : ℕ) : List ℚ :=
  klines.filterMap (fun k =>
    match nineAMOf klines (dateKeyOf k) with
    | none => none
    | some ref =>
      if kstDayOfWeekOf ref = day ∧ kstHourOf k = (hour : ℤ) then
        some ((k.close - ref.close) / ref.close * 100)
      else none)

/-- One cell of the per-symbol day-hour pattern; the 09:00 cell mean is
pinned to 0 in both branches of the source. -/
def dayHourCell (klines : List Kline) (day : ℤ) (hour : ℕ) : DayHourData :=
  if (dayHourChanges klines day hour).length = 0 then ⟨day, hour, 0, 0⟩
  else
    ⟨day, hour,
      if hour = 9 then 0
      else (dayHourChanges klines day hour).sum /
        ((dayHourChanges klines day hour).length : ℚ),
      (dayHourChanges klines day hour).length⟩

/-- A day-hour pattern: 7 rows (Monday first) of 24 cells. -/
structure DayHourPattern where
  data : List (List DayHourData)
  dayNames : List String
deriving DecidableEq, Repr

/-- The source builds rows for original day indices 0..6 and then reorders
them Monday-first as [1, 2, 3, 4, 5, 6, 0]; row i of the output therefore
holds original day (i = 6 ? 0 : i + 1). -/
def dayHourReorder (i : ℕ) : ℤ := if i = 6 then 0 else (i : ℤ) + 1

/-- Per-symbol day-hour pattern (analyzeDayHourPattern): null under 24
candles, otherwise the reordered 7 x 24 grid of cells. -/
def analyzeDayHourPattern (klines : List Kline) : Option DayHourPattern :=
  if klines.length < 24 then none
  else some
    { data := (List.range 7).map (fun i =>
        (List.range 24).map (fun h => dayHourCell klines (dayHourReorder i) h)),
      dayNames := ["월", "화", "수", "목", "금", "토", "일"] }

/-- The per-cell inputs of the market aggregation: the (day, hour) cells of
every valid pattern that carry at least one observation. -/
def marketCells (validPatterns : List DayHourPattern) (day hour : ℕ) : List DayHourData :=
  (validPatterns.map (fun p => (p.data.getD day []).getD hour defaultDayHourData)).filter
    (fun c => decide (0 < c.totalCount))

/-- One aggregated market cell: the count-weighted mean of the member
averages, except that the 09:00 cell mean is pinned to 0. -/
def marketDayHourCell (validPatterns : List DayHourPattern) (day hour : ℕ) : DayHourData :=
  if (marketCells validPatterns day hour).length = 0 then
    ⟨if day = 6 then 0 else (day : ℤ) + 1, hour, 0, 0⟩
  else
    ⟨if day = 6 then 0 else (day : ℤ) + 1, hour,
      if hour = 9 then 0
      else
        if 0 < ((marketCells validPatterns day hour).map (fun c => c.totalCount)).sum then
          ((marketCells validPatterns day hour).map
            (fun c => c.avgChange * (c.totalCount : ℚ))).sum /
            ((((marketCells validPatterns day hour).map (fun c => c.totalCount)).sum : ℕ) : ℚ)
        else 0,
      ((marketCells validPatterns day hour).map (fun c => c.totalCount)).sum⟩

/-- Market-wide aggregation (analyzeMarketDayHourPattern): null when no
valid per-symbol pattern exists. -/
def analyzeMarketDayHourPattern (symbolPatterns : List (Option DayHourPattern)) :
    Option DayHourPattern :=
  if (symbolPatterns.filterMap id).length = 0 then none
  else some
    { data := (List.range 7).map (fun day =>
        (List.range 24).map (fun hour =>
          marketDayHourCell (symbolPatterns.filterMap id) day hour)),
      dayNames := ["월", "화", "수", "목", "금", "토", "일"] }

theorem getD_range_map {α : Type} (f : ℕ → α) (n i : ℕ) (d : α) (h : i < n) :
    ((List.range n).map f).getD i d = f i := by
  rw [List.getD_eq_getElem?_getD, List.getElem?_map, List.getElem?_range h]
  rfl

theorem dayHourCell_nine_avg (klines : List Kline) (day : ℤ) :
    (dayHourCell klines day 9).avgChange = 0 := by
  rw [dayHourCell]
  split
  · rfl
  · simp

theorem marketDayHourCell_nine_avg (vp : List DayHourPattern) (day : ℕ) :
    (marketDayHourCell vp day 9).avgChange = 0 := by
  rw [marketDayHourCell]
  split
  · rfl
  · simp

/-- C10: whenever the per-symbol day-hour pattern is non-null, and likewise
for every non-trivial market aggregation, the 09:00 cell of every weekday
row has avgChange exactly 0 (the 09:00 candle is the fixed reference). -/
theorem dayHour_nineAM_zero :
    (∀ (klines : List Kline) (d : ℕ), 24 ≤ klines.length → d < 7 →
      (analyzeDayHourPattern klines).map
        (fun p => ((p.data.getD d []).getD 9 defaultDayHourData).avgChange) = some 0) ∧
    (∀ (symbolPatterns : List (Option DayHourPattern)) (d : ℕ),
      (symbolPatterns.filterMap id).length ≠ 0 → d < 7 →
      (analyzeMarketDayHourPattern symbolPatterns).map
        (fun p => ((p.data.getD d []).getD 9 defaultDayHourData).avgChange) = some 0) := by
  constructor
  · intro klines d h24 hd
    rw [analyzeDayHourPattern, if_neg (by omega)]
    simp only [Option.map_some']
    congr 1
    rw [getD_range_map _ 7 d _ hd, getD_range_map _ 24 9 _ (by norm_num)]
    exact dayHourCell_nine_avg klines _
  · intro pats d hne hd
    rw [analyzeMarketDayHourPattern, if_neg hne]
    simp only [Option.map_some']
    congr 1
    rw [getD_range_map _ 7 d _ hd, getD_range_map _ 24 9 _ (by norm_num)]
    exact marketDayHourCell_nine_avg _ _

def c10klines : List Kline :=
  (List.range 24).map (fun i => ⟨(i : ℤ) * 3600000, 100, 101, 99, 100 + (i : ℚ), 10⟩)

def c10pattern : DayHourPattern := ⟨[], []⟩

/-- Witness for C10 on 24 hourly candles and on a one-element aggregation. -/
theorem dayHour_nineAM_zero_witness :
    (24 ≤ c10klines.length) ∧ ((0:ℕ) < 7) ∧
    ((analyzeDayHourPattern c10klines).map
      (fun p => ((p.data.getD 0 []).getD 9 defaultDayHourData).avgChange) = some 0) ∧
    (([some c10pattern].filterMap id).length ≠ 0) ∧
    ((analyzeMarketDayHourPattern [some c10pattern]).map
      (fun p => ((p.data.getD 0 []).getD 9 defaultDayHourData).avgChange) = some 0) :=
  ⟨by decide, by decide,
    dayHour_nineAM_zero.1 c10klines 0 (by decide) (by decide),
    by decide,
    dayHour_nineAM_zero.2 [some c10pattern] 0 (by decide) (by decide)⟩

/-! ### VPVR point of control (calculateVPVRPOC) -/

/-- Volume-profile summary record. -/
structure VPVRPOC where
  poc : ℚ
  value_area_high : ℚ
  value_area_low : ℚ
  total_volume : ℚ
deriving DecidableEq, Repr

/-- Minimum low over the candles (the Math.min fold from Infinity; in this
model every candle is numerically valid). -/
def minPriceOf (klines : List Kline) : ℚ := listMin (klines.map (fun k => k.low))

/-- Maximum high over the candles. -/
def maxPriceOf (klines : List Kline) : ℚ := listMax (klines.map (fun k => k.high))

/-- Total volume over the candles. -/
def totalVolumeOf (klines : List Kline) : ℚ := (klines.map (fun k => k.volume)).sum

/-- The share of one candle's volume landing in the bin [binLow, binHigh]:
overlap-proportional for a candle with positive range, the full volume for
a degenerate candle whose single price lies in the bin, 0 otherwise. -/
def binContribution (binLow binHigh : ℚ) (k : Kline) : ℚ :=
  if binLow ≤ k.high ∧ k.low ≤ binHigh then
    if 0 < k.high - k.low then
      k.volume * ((min k.high binHigh - max k.low binLow) / (k.high - k.low))
    else if binLow ≤ k.low ∧ k.low ≤ binHigh then k.volume
    else 0
  else 0

/-- The per-bin (price, volume) profile: bin i spans
[minPrice + i binSize, minPrice + (i+1) binSize] and carries the mid price. -/
def volumeProfile (klines : List Kline) (bins : ℕ) (minPrice binSize : ℚ) :
    List (ℚ × ℚ) :=
  (List.range bins).map (fun i : ℕ =>
    (((minPrice + (i : ℚ) * binSize) + (minPrice + ((i : ℚ) + 1) * binSize)) / 2,
      (klines.map (binContribution (minPrice + (i : ℚ) * binSize)
        (minPrice + ((i : ℚ) + 1) * binSize))).sum))

/-- POC selection: the price of the first bin strictly exceeding every
earlier accumulated maximum (maxVolume starts at 0, poc at 0). -/
def pocOf (profile : List (ℚ × ℚ)) : ℚ :=
  (profile.foldl (fun acc b => if acc.2 < b.2 then b else acc) (0, 0)).1

/-- Stable insertion of a bin into a volume-descending list (the JS stable
sort with comparator b.volume - a.volume). -/
def insertByVolume (b : ℚ × ℚ) : List (ℚ × ℚ) → List (ℚ × ℚ)
  | [] => [b]
  | a :: rest => if b.2 ≤ a.2 then a :: insertByVolume b rest else b :: a :: rest

/-- Volume-descending stable sort of the profile. -/
def sortByVolumeDesc (profile : List (ℚ × ℚ)) : List (ℚ × ℚ) :=
  profile.foldl (fun acc b => insertByVolume b acc) []

/-- Prices of the bins taken in volume-descending order until the running
volume reaches the target. -/
def takeUntilTarget (target : ℚ) : List (ℚ × ℚ) → ℚ → List ℚ
  | [], _ => []
  | b :: rest, acc =>
    if target ≤ acc + b.2 then [b.1]
    else b.1 :: takeUntilTarget target rest (acc + b.2)

/-- VPVR point-of-control computation: null for an empty list, a
nonpositive price range, or zero total volume; otherwise the POC and the
70-percent value area over 50 equal price bins by default. -/
def calculateVPVRPOC (klines : List Kline) (bins : ℕ := 50) : Option VPVRPOC :=
  if klines.length = 0 then none
  else if maxPriceOf klines ≤ minPriceOf klines ∨ totalVolumeOf klines = 0 then none
  else
    let binSize := (maxPriceOf klines - minPriceOf klines) / (bins : ℚ)
    let profile := volumeProfile klines bins (minPriceOf klines) binSize
    let valueAreaPrices := takeUntilTarget (totalVolumeOf klines * 0.7)
      (sortByVolumeDesc profile) 0
    some
      { poc := pocOf profile,
        value_area_high := listMax valueAreaPrices,
        value_area_low := listMin valueAreaPrices,
        total_volume := totalVolumeOf klines }

/-- C5 (amended): calculateVPVRPOC returns null exactly when the candle
list is empty, or the maximum high does not exceed the minimum low (an
empty or degenerate price range), or the total volume is zero; otherwise
it returns a non-null record. -/
theorem vpvr_none_characterisation (klines : List Kline) (bins : ℕ) :
    calculateVPVRPOC klines bins = none ↔
      (klines = [] ∨ maxPriceOf klines ≤ minPriceOf klines ∨ totalVolumeOf klines = 0) := by
  rw [calculateVPVRPOC]
  constructor
  · intro h
    by_cases h0 : klines.length = 0
    · exact Or.inl (List.length_eq_zero.mp h0)
    · rw [if_neg h0] at h
      by_cases h1 : maxPriceOf klines ≤ minPriceOf klines ∨ totalVolumeOf klines = 0
      · exact Or.inr h1
      · rw [if_neg h1] at h
        exact absurd h (by simp)
  · intro h
    rcases h with h | h
    · rw [if_pos (by simp [h])]
    · by_cases h0 : klines.length = 0
      · rw [if_pos h0]
      · rw [if_neg h0, if_pos h]

def c5klines : List Kline := [⟨0, 100, 100, 100, 100, 5⟩]

/-- Counterexample for C5 as stated: a single numerically valid candle with
strictly positive volume for which calculateVPVRPOC nevertheless returns
null, because its price range is degenerate (high = low). -/
theorem vpvr_nonnull_claim_cex :
    calculateVPVRPOC c5klines 50 = none ∧
    totalVolumeOf c5klines = 5 ∧ c5klines ≠ [] := by
  refine ⟨?_, ?_, by decide⟩
  · rw [calculateVPVRPOC, if_neg (by decide), if_pos]
    left
    norm_num [maxPriceOf, minPriceOf, c5klines, listMax, listMin]
  · norm_num [totalVolumeOf, c5klines]

/-! ### Volume conservation of the VPVR profile (claim C4) -/

/-- Clamp of t into the candle range [low, high]. -/
def clampQ (low high t : ℚ) : ℚ := max low (min high t)

theorem contrib_eq_clamp (k : Kline) (bl bh : ℚ) (hlh : k.low < k.high) (hbb : bl ≤ bh) :
    binContribution bl bh k =
      k.volume * ((clampQ k.low k.high bh - clampQ k.low k.high bl) / (k.high - k.low)) := by
  rw [binContribution]
  by_cases hg : bl ≤ k.high ∧ k.low ≤ bh
  · rw [if_pos hg, if_pos (by linarith)]
    have h1 : clampQ k.low k.high bh = min k.high bh := by
      rw [clampQ, max_eq_right]
      exact le_min (le_of_lt hlh) hg.2
    have h2 : clampQ k.low k.high bl = max k.low bl := by
      rw [clampQ, min_eq_right hg.1]
    rw [h1, h2]
  · rw [if_neg hg]
    push_neg at hg
    rcases le_or_lt bl k.high with hc | hc
    · have hbhlow : bh < k.low := hg hc
      have h1 : clampQ k.low k.high bh = k.low := by
        rw [clampQ, min_eq_right (by linarith), max_eq_left (le_of_lt hbhlow)]
      have h2 : clampQ k.low k.high bl = k.low := by
        rw [clampQ, min_eq_right hc, max_eq_left (by linarith)]
      rw [h1, h2]
      simp
    · have h1 : clampQ k.low k.high bl = k.high := by
        rw [clampQ, min_eq_left (by linarith), max_eq_right (le_of_lt hlh)]
      have h2 : clampQ k.low k.high bh = k.high := by
        rw [clampQ, min_eq_left (by linarith), max_eq_right (le_of_lt hlh)]
      rw [h1, h2]
      simp

theorem sum_range_map_sub (f : ℕ → ℚ) (n : ℕ) :
    ((List.range n).map (fun i => f (i + 1) - f i)).sum = f n - f 0 := by
  induction n with
  | zero => simp
  | succ m ih =>
    rw [List.range_succ, List.map_append, List.sum_append, ih]
    simp only [List.map_cons, List.map_nil, List.sum_cons, List.sum_nil]
    ring

theorem sum_map_mul_left_q {α : Type} (l : List α) (c : ℚ) (f : α → ℚ) :
    (l.map (fun x => c * f x)).sum = c * (l.map f).sum := by
  induction l with
  | nil => simp
  | cons a t ih =>
    simp only [List.map_cons, List.sum_cons, ih]
    ring

theorem candle_bins_sum_nondeg (k : Kline) (minPrice binSize : ℚ) (bins : ℕ)
    (hbs : 0 < binSize) (hlh : k.low < k.high)
    (hlo : minPrice ≤ k.low) (hhi : k.high ≤ minPrice + (bins : ℚ) * binSize) :
    ((List.range bins).map (fun i : ℕ => binContribution (minPrice + (i : ℚ) * binSize)
      (minPrice + ((i : ℚ) + 1) * binSize) k)).sum = k.volume := by
  have hstep : ∀ i : ℕ, binContribution (minPrice + (i : ℚ) * binSize)
      (minPrice + ((i : ℚ) + 1) * binSize) k =
      (k.volume / (k.high - k.low)) *
        (clampQ k.low k.high (minPrice + ((i : ℚ) + 1) * binSize) -
          clampQ k.low k.high (minPrice + (i : ℚ) * binSize)) := by
    intro i
    have hbb : minPrice + (i : ℚ) * binSize ≤ minPrice + ((i : ℚ) + 1) * binSize := by
      have : (minPrice + ((i : ℚ) + 1) * binSize) - (minPrice + (i : ℚ) * binSize) = binSize := by
        ring
      linarith
    rw [contrib_eq_clamp k _ _ hlh hbb]
    ring
  have hcongr : (List.range bins).map (fun i : ℕ => binContribution (minPrice + (i : ℚ) * binSize)
      (minPrice + ((i : ℚ) + 1) * binSize) k) =
      (List.range bins).map (fun i : ℕ => (k.volume / (k.high - k.low)) *
        ((fun j : ℕ => clampQ k.low k.high (minPrice + (j : ℚ) * binSize)) (i + 1) -
          (fun j : ℕ => clampQ k.low k.high (minPrice + (j : ℚ) * binSize)) i)) := by
    apply List.map_congr_left
    intro i _
    rw [hstep i]
    simp only []
    push_cast
    ring
  rw [hcongr, sum_map_mul_left_q, sum_range_map_sub
    (fun j : ℕ => clampQ k.low k.high (minPrice + (j : ℚ) * binSize)) bins]
  have hfb : clampQ k.low k.high (minPrice + (bins : ℚ) * binSize) = k.high := by
    rw [clampQ, min_eq_left hhi, max_eq_right (le_of_lt hlh)]
  have hf0 : clampQ k.low k.high (minPrice + (0 : ℚ) * binSize) = k.low := by
    have : minPrice + (0 : ℚ) * binSize = minPrice := by ring
    rw [this, clampQ, min_eq_right (by linarith), max_eq_left hlo]
  rw [show ((0 : ℕ) : ℚ) = (0 : ℚ) from rfl, hfb, hf0]
  rw [div_mul_cancel₀ _ (sub_ne_zero.mpr (ne_of_gt hlh))]

theorem contrib_deg (k : Kline) (bl bh : ℚ) (heq : k.high = k.low) :
    binContribution bl bh k = if bl ≤ k.low ∧ k.low ≤ bh then k.volume else 0 := by
  rw [binContribution, heq]
  by_cases hg : bl ≤ k.low ∧ k.low ≤ bh
  · rw [if_pos hg, if_neg (by linarith), if_pos hg]
  · rw [if_neg hg, if_neg hg]

theorem sum_range_if_single (n j : ℕ) (c : ℚ) (hj : j < n) :
    ((List.range n).map (fun i => if i = j then c else 0)).sum = c := by
  induction n with
  | zero => omega
  | succ m ih =>
    rw [List.range_succ, List.map_append, List.sum_append]
    by_cases hjm : j = m
    · subst hjm
      have hz : ((List.range j).map (fun i => if i = j then c else 0)).sum = 0 := by
        apply List.sum_eq_zero
        intro x hx
        rcases List.mem_map.mp hx with ⟨i, hi, hix⟩
        have : i < j := List.mem_range.mp hi
        rw [← hix, if_neg (by omega)]
      rw [hz]
      simp
    · have hj' : j < m := by omega
      rw [ih hj']
      simp only [List.map_cons, List.map_nil, List.sum_cons, List.sum_nil]
      rw [if_neg (fun hc => hjm hc.symm)]
      ring

theorem exists_unique_bin (minPrice binSize p : ℚ) (bins : ℕ) (hbs : 0 < binSize)
    (hb : 1 ≤ bins) (hlo : minPrice ≤ p) (hhi : p ≤ minPrice + (bins : ℚ) * binSize)
    (hnb : ∀ j : ℕ, j < bins → 0 < j → p ≠ minPrice + (j : ℚ) * binSize) :
    ∃ j, j < bins ∧ ∀ i, i < bins →
      ((minPrice + (i : ℚ) * binSize ≤ p ∧ p ≤ minPrice + ((i : ℚ) + 1) * binSize) ↔ i = j) := by
  set q := (p - minPrice) / binSize with hq
  have hq0 : 0 ≤ q := div_nonneg (by linarith) (le_of_lt hbs)
  have hqb : q ≤ (bins : ℚ) := by
    rw [hq, div_le_iff hbs]
    linarith
  have hle_iff : ∀ i : ℕ, (minPrice + (i : ℚ) * binSize ≤ p ↔ (i : ℚ) ≤ q) := by
    intro i
    rw [hq, le_div_iff hbs]
    constructor <;> intro h <;> linarith
  have hge_iff : ∀ i : ℕ, (p ≤ minPrice + ((i : ℚ) + 1) * binSize ↔ q ≤ (i : ℚ) + 1) := by
    intro i
    rw [hq, div_le_iff hbs]
    constructor <;> intro h <;> linarith
  by_cases hqbins : q = (bins : ℚ)
  · refine ⟨bins - 1, by omega, ?_⟩
    intro i hi
    have hcast : ((bins - 1 : ℕ) : ℚ) = (bins : ℚ) - 1 := by
      push_cast [Nat.cast_sub hb]
      ring
    constructor
    · rintro ⟨h1, h2⟩
      rw [hge_iff i, hqbins] at h2
      have hcb : (bins : ℚ) ≤ ((i + 1 : ℕ) : ℚ) := by push_cast; linarith
      have : bins ≤ i + 1 := by exact_mod_cast hcb
      omega
    · intro hij
      subst hij
      constructor
      · rw [hle_iff, hcast, hqbins]
        linarith
      · rw [hge_iff, hcast, hqbins]
        linarith
  · have hqlt : q < (bins : ℚ) := lt_of_le_of_ne hqb hqbins
    have hfl0 : 0 ≤ ⌊q⌋ := Int.floor_nonneg.mpr hq0
    have hflt : ⌊q⌋ < (bins : ℤ) := by
      rw [Int.floor_lt]
      exact_mod_cast hqlt
    have hjq : ((⌊q⌋.toNat : ℕ) : ℚ) = ((⌊q⌋ : ℤ) : ℚ) := by
      exact_mod_cast Int.toNat_of_nonneg hfl0
    refine ⟨⌊q⌋.toNat, by omega, ?_⟩
    intro i hi
    constructor
    · rintro ⟨h1, h2⟩
      rw [hle_iff] at h1
      rw [hge_iff] at h2
      have hij : (i : ℤ) ≤ ⌊q⌋ := Int.le_floor.mpr (by exact_mod_cast h1)
      have hji : ⌊q⌋ ≤ (i : ℤ) + 1 := by
        have h3 : q ≤ (((i : ℤ) + 1 : ℤ) : ℚ) := by push_cast; linarith
        have h4 := Int.floor_le_floor h3
        rwa [Int.floor_intCast] at h4
      rcases eq_or_lt_of_le hij with heq | hlt2
      · omega
      · have hfeq : ⌊q⌋ = (i : ℤ) + 1 := by omega
        have hfloor_le : ((⌊q⌋ : ℤ) : ℚ) ≤ q := Int.floor_le q
        rw [hfeq] at hfloor_le
        have hqe : q = (i : ℚ) + 1 := by
          push_cast at hfloor_le
          linarith
        have hpm : p - minPrice = q * binSize := by
          rw [hq, div_mul_cancel₀]
          exact ne_of_gt hbs
        have hpe : p = minPrice + ((i + 1 : ℕ) : ℚ) * binSize := by
          push_cast
          rw [hqe] at hpm
          linarith
        exact absurd hpe (hnb (i + 1) (by omega) (by omega))
    · intro hij
      subst hij
      constructor
      · rw [hle_iff, hjq]
        exact Int.floor_le q
      · rw [hge_iff, hjq]
        have := Int.lt_floor_add_one q
        linarith

theorem candle_bins_sum_deg (k : Kline) (minPrice binSize : ℚ) (bins : ℕ)
    (hbs : 0 < binSize) (hb : 1 ≤ bins) (heq : k.high = k.low)
    (hlo : minPrice ≤ k.low) (hhi : k.low ≤ minPrice + (bins : ℚ) * binSize)
    (hnb : ∀ j : ℕ, j < bins → 0 < j → k.low ≠ minPrice + (j : ℚ) * binSize) :
    ((List.range bins).map (fun i : ℕ => binContribution (minPrice + (i : ℚ) * binSize)
      (minPrice + ((i : ℚ) + 1) * binSize) k)).sum = k.volume := by
  obtain ⟨j, hj, hiff⟩ := exists_unique_bin minPrice binSize k.low bins hbs hb hlo hhi hnb
  have hcongr : (List.range bins).map (fun i : ℕ => binContribution
      (minPrice + (i : ℚ) * binSize) (minPrice + ((i : ℚ) + 1) * binSize) k) =
      (List.range bins).map (fun i : ℕ => if i = j then k.volume else 0) := by
    apply List.map_congr_left
    intro i hi
    rw [contrib_deg k _ _ heq]
    have hspec := hiff i (List.mem_range.mp hi)
    by_cases hij : i = j
    · rw [if_pos (hspec.mpr hij), if_pos hij]
    · rw [if_neg (fun hc => hij (hspec.mp hc)), if_neg hij]
  rw [hcongr, sum_range_if_single bins j k.volume hj]

theorem sum_map_add_distrib {α : Type} (l : List α) (f g : α → ℚ) :
    (l.map (fun x => f x + g x)).sum = (l.map f).sum + (l.map g).sum := by
  induction l with
  | nil => simp
  | cons a t ih =>
    simp only [List.map_cons, List.sum_cons, ih]
    ring

theorem range_sum_swap (klines : List Kline) (g : Kline → ℕ → ℚ) (bins : ℕ) :
    ((List.range bins).map (fun i : ℕ => (klines.map (fun k => g k i)).sum)).sum =
      (klines.map (fun k => ((List.range bins).map (fun i : ℕ => g k i)).sum)).sum := by
  induction klines with
  | nil => simp
  | cons a t ih =>
    simp only [List.map_cons, List.sum_cons]
    rw [sum_map_add_distrib, ih]

/-- C4 (amended): whenever the profile is actually built (nonempty candles,
a positive price range) over at least one bin, if every candle is
well-formed (low at most high) and no degenerate (high = low) candle sits
exactly on an interior bin boundary, then the accumulated volume over all
bins equals the total input volume: each candle's volume is distributed
exactly once. -/
theorem vpvr_volume_conservation (klines : List Kline) (bins : ℕ)
    (hb : 1 ≤ bins) (hne : klines ≠ [])
    (hr : minPriceOf klines < maxPriceOf klines)
    (hwf : ∀ k ∈ klines, k.low ≤ k.high)
    (hdeg : ∀ k ∈ klines, k.high = k.low → ∀ j : ℕ, j < bins → 0 < j →
      k.low ≠ minPriceOf klines + (j : ℚ) *
        ((maxPriceOf klines - minPriceOf klines) / (bins : ℚ))) :
    ((volumeProfile klines bins (minPriceOf klines)
      ((maxPriceOf klines - minPriceOf klines) / (bins : ℚ))).map (fun b => b.2)).sum =
      totalVolumeOf klines := by
  set m := minPriceOf klines with hm
  set bs := (maxPriceOf klines - minPriceOf klines) / (bins : ℚ) with hbsdef
  have hbnat : 0 < bins := hb
  have hbins0 : (0 : ℚ) < (bins : ℚ) := by exact_mod_cast hbnat
  have hbs : 0 < bs := by
    rw [hbsdef]
    apply div_pos _ hbins0
    linarith
  have hend : m + (bins : ℚ) * bs = maxPriceOf klines := by
    rw [hbsdef, hm]
    field_simp
  rw [volumeProfile, List.map_map]
  have hcomp : ((fun b : ℚ × ℚ => b.2) ∘ (fun i : ℕ =>
      (((m + (i : ℚ) * bs) + (m + ((i : ℚ) + 1) * bs)) / 2,
        (klines.map (binContribution (m + (i : ℚ) * bs) (m + ((i : ℚ) + 1) * bs))).sum))) =
      fun i : ℕ => (klines.map (fun k =>
        binContribution (m + (i : ℚ) * bs) (m + ((i : ℚ) + 1) * bs) k)).sum := rfl
  rw [hcomp]
  rw [range_sum_swap klines
    (fun k i => binContribution (m + (i : ℚ) * bs) (m + ((i : ℚ) + 1) * bs) k) bins]
  rw [totalVolumeOf]
  apply congrArg List.sum
  apply List.map_congr_left
  intro k hk
  have hlo : m ≤ k.low := listMin_le _ _ (List.mem_map_of_mem (fun k => k.low) hk)
  have hhi : k.high ≤ maxPriceOf klines := le_listMax _ _ (List.mem_map_of_mem (fun k => k.high) hk)
  rcases lt_or_eq_of_le (hwf k hk) with hlt | heq2
  · exact candle_bins_sum_nondeg k m bs bins hbs hlt hlo (by rw [hend]; exact hhi)
  · refine candle_bins_sum_deg k m bs bins hbs hb heq2.symm hlo ?_ ?_
    · rw [hend]
      calc k.low = k.high := heq2.symm ▸ rfl
        _ ≤ maxPriceOf klines := hhi
    · exact hdeg k hk heq2.symm

def c4cex : List Kline :=
  [⟨0, 50, 100, 0, 50, 100⟩, ⟨3600000, 50, 50, 50, 50, 10⟩]

/-- Counterexample for C4 as stated: with a candle spanning 0..100 of
volume 100 and a degenerate candle at price 50 (an interior boundary of
the 50 equal bins over 0..100) of volume 10, the profile is non-null but
its accumulated volume is 120, not the total input volume 110: the
boundary candle is counted in both adjacent bins. -/
theorem vpvr_volume_conservation_cex :
    (calculateVPVRPOC c4cex 50).isSome = true ∧
    ((volumeProfile c4cex 50 (minPriceOf c4cex)
      ((maxPriceOf c4cex - minPriceOf c4cex) / (50 : ℚ))).map (fun b => b.2)).sum ≠
      totalVolumeOf c4cex := by
  constructor
  · rw [calculateVPVRPOC, if_neg (by decide), if_neg]
    · rfl
    · push_neg
      constructor
      · norm_num [maxPriceOf, minPriceOf, listMax, listMin, c4cex]
      · norm_num [totalVolumeOf, c4cex]
  · have hrange : List.range 50 =
        [0, 1, 2, 3, 4, 5, 6, 7, 8, 9, 10, 11, 12, 13, 14, 15, 16, 17, 18, 19, 20, 21, 22,
          23, 24, 25, 26, 27, 28, 29, 30, 31, 32, 33, 34, 35, 36, 37, 38, 39, 40, 41, 42,
          43, 44, 45, 46, 47, 48, 49] := rfl
    norm_num [volumeProfile, binContribution, minPriceOf, maxPriceOf, totalVolumeOf,
      listMin, listMax, c4cex, hrange]

def c4wit : List Kline :=
  [⟨0, 50, 100, 0, 50, 100⟩, ⟨3600000, 33, 33, 33, 33, 7⟩]

/-- Witness for C4 on a spanning candle plus a degenerate candle at the
off-boundary price 33. -/
theorem vpvr_volume_conservation_witness :
    (1 ≤ 50) ∧ (c4wit ≠ []) ∧ (minPriceOf c4wit < maxPriceOf c4wit) ∧
    ((volumeProfile c4wit 50 (minPriceOf c4wit)
      ((maxPriceOf c4wit - minPriceOf c4wit) / (50 : ℚ))).map (fun b => b.2)).sum =
      totalVolumeOf c4wit :=
  ⟨by norm_num, by decide, by norm_num [minPriceOf, maxPriceOf, listMin, listMax, c4wit],
    vpvr_volume_conservation c4wit 50 (by norm_num) (by decide)
      (by norm_num [minPriceOf, maxPriceOf, listMin, listMax, c4wit])
      (by intro k hk; fin_cases hk <;> norm_num)
      (by
        intro k hk heq j hj hj0
        fin_cases hk
        · norm_num at heq
        · have hmin : minPriceOf c4wit = 0 := by norm_num [minPriceOf, listMin, c4wit]
          have hmax : maxPriceOf c4wit = 100 := by norm_num [maxPriceOf, listMax, c4wit]
          rw [hmin, hmax]
          intro hcontra
          norm_num at hcontra
          have hnat : (33 : ℕ) = j * 2 := by exact_mod_cast hcontra
          omega)⟩

/-! ### Weekly pattern record and timing score (computeTimingScore) -/

/-- Statistics of one weekday of the weekly pattern. -/
structure DayPattern where
  day : String
  positiveCount : ℕ
  negativeCount : ℕ
  totalCount : ℕ
  winRate : ℚ
  maxChange : ℚ
  minChange : ℚ
  avgAtrPct : ℚ
deriving DecidableEq, Repr

/-- Weekly pattern: one DayPattern per weekday plus the extreme days. -/
structure WeeklyPattern where
  monday : DayPattern
  tuesday : DayPattern
  wednesday : DayPattern
  thursday : DayPattern
  friday : DayPattern
  saturday : DayPattern
  sunday : DayPattern
  bestDay : String
  worstDay : String
deriving DecidableEq, Repr

/-- The observable part of a JavaScript Date used by the timing score:
getUTCHours and getUTCDay. -/
structure ClockDate where
  utcHour : ℤ
  utcDay : ℤ
deriving DecidableEq, Repr

/-- Index translation from getUTCDay (0 = Sunday) to the Monday-first rows
of the day-hour pattern. -/
def dayHourDataIndex (utcDay : ℤ) : ℤ := if utcDay = 0 then 6 else utcDay - 1

/-- The dayMap lookup composed with the weekly-pattern field access. -/
def weekdayOf (wp : WeeklyPattern) (d : ℤ) : Option DayPattern :=
  if d = 0 then some wp.sunday
  else if d = 1 then some wp.monday
  else if d = 2 then some wp.tuesday
  else if d = 3 then some wp.wednesday
  else if d = 4 then some wp.thursday
  else if d = 5 then some wp.friday
  else if d = 6 then some wp.saturday
  else none

/-- Timing score in [0,1] from the weekly and day-hour patterns at the
current KST weekday and hour.  The source defaults kstNow to new Date():
that ambient clock read is the explicit argument now. -/
def computeTimingScore (weeklyPattern : Option WeeklyPattern)
    (dayHourPattern : Option DayHourPattern)
    (kstNow : Option ClockDate) (now : ClockDate) : ℚ :=
  match weeklyPattern, dayHourPattern with
  | some wp, some dhp =>
    let d := kstNow.getD now
    let kstHour := Int.emod (d.utcHour + 9) 24
    let kstDayOffset : ℤ := if 24 ≤ d.utcHour + 9 then 1 else 0
    let currentDay := Int.emod (d.utcDay + kstDayOffset) 7
    let dayScore := ((weekdayOf wp currentDay).map (fun p => p.winRate)).getD 0.5
    let avgChange := (((dhp.data.get? (dayHourDataIndex currentDay).toNat).bind
      (fun row => row.get? kstHour.toNat)).map (fun c => c.avgChange)).getD 0
    let hourScore := max 0 (min 1 (0.5 - 0.25 * max (-2) (min 2 avgChange)))
    0.5 * dayScore + 0.5 * hourScore
  | _, _ => 0.5

/-! ### Composite short score (calculateShortScore and helpers) -/

/-- The ticker fields the scorer reads, as the rationals parseFloat
produces (quoteVolume defaults to 0 for a missing string). -/
structure Ticker where
  quoteVolume : ℚ
  lastPrice : ℚ
deriving DecidableEq, Repr

inductive TrendStrength
  | strong
  | moderate
  | weak
deriving DecidableEq, Repr

inductive TrendDirection
  | up
  | down
  | neutral
deriving DecidableEq, Repr

/-- ADX summary record. -/
structure ADXResult where
  adx : ℚ
  plusDI : ℚ
  minusDI : ℚ
  trend_strength : TrendStrength
  trend_direction : TrendDirection
deriving DecidableEq, Repr

/-- Funding sub-score: hourly rate in percent mapped through the
(x + 0.15) / 0.3 band and clamped to [0,1]. -/
def fundingScoreOf (fundingInfo : FundingInfo) (now : ℤ) : ℚ :=
  min (max ((calculateHourlyFundingRate fundingInfo.lastFundingRate
    fundingInfo.nextFundingTime fundingInfo.fundingIntervalHours now * 100 + 0.15) / 0.3) 0) 1

/-- RSI sub-score: linear map of [25,75] onto [0,1], clamped. -/
def rsiScoreOf (rsi : ℚ) : ℚ := min (max ((rsi - 25) / 50) 0) 1

/-- Volume sub-score: quote volume over 10 billion, capped at 1. -/
def volumeScoreOf (quoteVolume : ℚ) : ℚ := min (quoteVolume / 10000000000) 1

/-- ADX sub-score bands. -/
def adxScoreOf : Option ADXResult → ℚ
  | none => 0.5
  | some a =>
    match a.trend_direction, a.trend_strength with
    | .down, .strong => 0.9
    | .down, .moderate => 0.7
    | .down, .weak => 0.6
    | .up, .strong => 0.1
    | .up, _ => 0.3
    | .neutral, .weak => 0.4
    | .neutral, _ => 0.5

/-- Moving-average alignment adjustment (MA50 versus MA200). -/
def maAlignmentAdj (latestMA50 latestMA200 : ℚ) : ℚ :=
  if latestMA50 < latestMA200 then
    if 5 < (latestMA200 - latestMA50) / latestMA200 * 100 then 0.2
    else if 2 < (latestMA200 - latestMA50) / latestMA200 * 100 then 0.15
    else 0.1
  else if latestMA200 < latestMA50 then
    if 5 < (latestMA50 - latestMA200) / latestMA200 * 100 then -0.2
    else if 2 < (latestMA50 - latestMA200) / latestMA200 * 100 then -0.15
    else -0.1
  else 0

/-- Current-price-versus-moving-averages adjustment. -/
def maPositionAdj (currentPrice latestMA50 latestMA200 : ℚ) : ℚ :=
  if latestMA50 < currentPrice ∧ latestMA200 < latestMA50 then
    if 5 < (currentPrice - latestMA50) / latestMA50 * 100 then 0.15
    else if 2 < (currentPrice - latestMA50) / latestMA50 * 100 then 0.1
    else 0.05
  else if currentPrice < latestMA50 ∧ latestMA50 < latestMA200 then
    if 5 < (latestMA50 - currentPrice) / latestMA50 * 100 then 0.1
    else if 2 < (latestMA50 - currentPrice) / latestMA50 * 100 then 0.05
    else 0
  else if currentPrice < latestMA200 ∧ latestMA200 < latestMA50 then 0.05
  else if latestMA200 < currentPrice ∧ latestMA50 < latestMA200 then -0.1
  else 0

/-- Moving-average configuration sub-score: neutral 0.5 without usable MA
data (absent series, empty series, or a zero latest value, the falsy
guard), otherwise 0.5 plus both adjustments clamped to [0,1]. -/
def calculateMAScore (currentPrice : ℚ) (ma50Data ma200Data : Option (List TimeValue)) : ℚ :=
  match ma50Data, ma200Data with
  | some l50, some l200 =>
    if l50.length = 0 ∨ l200.length = 0 then 0.5
    else if (l50.getLastD ⟨0, 0⟩).value = 0 ∨ (l200.getLastD ⟨0, 0⟩).value = 0 then 0.5
    else max 0 (min 1 (0.5 +
      maAlignmentAdj (l50.getLastD ⟨0, 0⟩).value (l200.getLastD ⟨0, 0⟩).value +
      maPositionAdj currentPrice (l50.getLastD ⟨0, 0⟩).value (l200.getLastD ⟨0, 0⟩).value))
  | _, _ => 0.5

/-- VPVR sub-score, fixed-percentage fallback bands. -/
def vpvrStaticScore (priceDiffPercent : ℚ) : ℚ :=
  if priceDiffPercent < 0 then
    if priceDiffPercent ≤ -5 then 0.9
    else if priceDiffPercent ≤ -3 then 0.75
    else if priceDiffPercent ≤ -1 then 0.6
    else 0.5
  else
    if 5 ≤ priceDiffPercent then 0.1
    else if 3 ≤ priceDiffPercent then 0.25
    else if 1 ≤ priceDiffPercent then 0.4
    else 0.5

/-- Confidence damping for extreme ATR percentages. -/
def vpvrConfidence (atrPercent : ℚ) : ℚ :=
  if 5 < atrPercent then 0.7 else if 3 < atrPercent then 0.85 else 1

/-- ATR-relative VPVR base score bands. -/
def vpvrBaseScore (priceDiff atrMultiplier : ℚ) : ℚ :=
  if priceDiff < 0 then
    if 1.5 ≤ atrMultiplier then 0.9
    else if 1 ≤ atrMultiplier then 0.75
    else if 0.5 ≤ atrMultiplier then 0.6
    else 0.5
  else
    if 1.5 ≤ atrMultiplier then 0.1
    else if 1 ≤ atrMultiplier then 0.25
    else if 0.5 ≤ atrMultiplier then 0.4
    else 0.5

/-- VPVR sub-score: neutral 0.5 without a usable POC (absent record or a
zero POC, the falsy guard); with a positive ATR the dynamic banded score
damped by the confidence factor, otherwise the fixed-percentage bands. -/
def calculateVPVRScore (currentPrice : ℚ) (vpvrPOC : Option VPVRPOC) (atr : Option ℚ) : ℚ :=
  match vpvrPOC with
  | none => 0.5
  | some v =>
    if v.poc = 0 then 0.5
    else
      match atr with
      | some a =>
        if 0 < a then
          vpvrBaseScore (currentPrice - v.poc) (|currentPrice - v.poc| / a) *
            vpvrConfidence (a / currentPrice * 100)
        else vpvrStaticScore ((currentPrice - v.poc) / v.poc * 100)
      | none => vpvrStaticScore ((currentPrice - v.poc) / v.poc * 100)

/-- Current price: the close of the last candle, falling back to the
ticker last price. -/
def currentPriceOf (klines : List Kline) (ticker : Ticker) : ℚ :=
  match klines.getLast? with
  | some k => k.close
  | none => ticker.lastPrice

/-- Composite short score: the fixed-weight sum of the six sub-scores
(weights 0.11, 0.15, 0.15, 0.14, 0.15, 0.05 summing to 0.75) times 100.
The funding sub-score may read the ambient clock through the
funding-period inference; the clock is the explicit argument now. -/
def calculateShortScore (symbol : String) (ticker : Ticker)
    (fundingDict : String → Option FundingInfo) (klines : List Kline) (rsi : ℚ)
    (adxResult : Option ADXResult) (atr : Option ℚ)
    (ma50Data ma200Data : Option (List TimeValue)) (vpvrPOC : Option VPVRPOC)
    (now : ℤ) : ℚ :=
  (calculateVPVRScore (currentPriceOf klines ticker) vpvrPOC atr * 0.11 +
    adxScoreOf adxResult * 0.15 +
    rsiScoreOf rsi * 0.15 +
    fundingScoreOf ((fundingDict symbol).getD ⟨0, 0, none⟩) now * 0.14 +
    calculateMAScore (currentPriceOf klines ticker) ma50Data ma200Data * 0.15 +
    volumeScoreOf ticker.quoteVolume * 0.05) * 100

/-- The per-cycle timing application of the analysis view: the base score
plus 20 percent of the timing score scaled to 100, capped at 100. -/
def applyTimingAdjustment (base timingScore : ℚ) : ℚ :=
  min 100 (base + 0.20 * (timingScore * 100))

theorem clamp01_bounds (x : ℚ) : 0 ≤ min (max x 0) 1 ∧ min (max x 0) 1 ≤ 1 :=
  ⟨le_min (le_max_right x 0) zero_le_one, min_le_right _ 1⟩

theorem fundingScoreOf_bounds (fi : FundingInfo) (now : ℤ) :
    0 ≤ fundingScoreOf fi now ∧ fundingScoreOf fi now ≤ 1 := by
  rw [fundingScoreOf]
  exact clamp01_bounds _

theorem rsiScoreOf_bounds (rsi : ℚ) : 0 ≤ rsiScoreOf rsi ∧ rsiScoreOf rsi ≤ 1 := by
  rw [rsiScoreOf]
  exact clamp01_bounds _

theorem volumeScoreOf_bounds (qv : ℚ) (h : 0 ≤ qv) :
    0 ≤ volumeScoreOf qv ∧ volumeScoreOf qv ≤ 1 := by
  rw [volumeScoreOf]
  exact ⟨le_min (div_nonneg h (by norm_num)) zero_le_one, min_le_right _ 1⟩

theorem adxScoreOf_bounds (a : Option ADXResult) :
    0 ≤ adxScoreOf a ∧ adxScoreOf a ≤ 1 := by
  match a with
  | none => exact ⟨by norm_num [adxScoreOf], by norm_num [adxScoreOf]⟩
  | some r =>
    rcases r with ⟨adx, p, m, ts, td⟩
    cases td <;> cases ts <;> constructor <;> norm_num [adxScoreOf]

theorem maScore_bounds (cp : ℚ) (a b : Option (List TimeValue)) :
    0 ≤ calculateMAScore cp a b ∧ calculateMAScore cp a b ≤ 1 := by
  have hclamp : ∀ s : ℚ, 0 ≤ max 0 (min 1 s) ∧ max 0 (min 1 s) ≤ 1 := fun s =>
    ⟨le_max_left 0 _, max_le (by norm_num) (min_le_left 1 s)⟩
  rcases a with _ | l50
  · exact ⟨by norm_num [calculateMAScore], by norm_num [calculateMAScore]⟩
  · rcases b with _ | l200
    · exact ⟨by norm_num [calculateMAScore], by norm_num [calculateMAScore]⟩
    · simp only [calculateMAScore]
      split
      · norm_num
      · split
        · norm_num
        · exact hclamp _

theorem vpvrStaticScore_bounds (x : ℚ) :
    0 ≤ vpvrStaticScore x ∧ vpvrStaticScore x ≤ 1 := by
  rw [vpvrStaticScore]
  split_ifs <;> norm_num

theorem vpvrConfidence_bounds (x : ℚ) :
    0 ≤ vpvrConfidence x ∧ vpvrConfidence x ≤ 1 := by
  rw [vpvrConfidence]
  split_ifs <;> norm_num

theorem vpvrBaseScore_bounds (d m : ℚ) :
    0 ≤ vpvrBaseScore d m ∧ vpvrBaseScore d m ≤ 1 := by
  rw [vpvrBaseScore]
  split_ifs <;> norm_num

theorem vpvrScore_bounds (cp : ℚ) (v : Option VPVRPOC) (atr : Option ℚ) :
    0 ≤ calculateVPVRScore cp v atr ∧ calculateVPVRScore cp v atr ≤ 1 := by
  rcases v with _ | p
  · exact ⟨by norm_num [calculateVPVRScore], by norm_num [calculateVPVRScore]⟩
  · simp only [calculateVPVRScore]
    split
    · norm_num
    · rcases atr with _ | a
      · exact vpvrStaticScore_bounds _
      · simp only
        split
        · have h1 := vpvrBaseScore_bounds (cp - p.poc) (|cp - p.poc| / a)
          have h2 := vpvrConfidence_bounds (a / cp * 100)
          constructor
          · exact mul_nonneg h1.1 h2.1
          · calc vpvrBaseScore (cp - p.poc) (|cp - p.poc| / a) *
                vpvrConfidence (a / cp * 100) ≤ 1 * 1 :=
              mul_le_mul h1.2 h2.2 h2.1 zero_le_one
            _ = 1 := by norm_num
        · exact vpvrStaticScore_bounds _

/-- C2: with all sub-scores in [0,1] (quote volume nonnegative suffices,
the other five are clamped or banded by construction) and a timing score
in [0,1], the composite short-suitability score after the timing
adjustment lies in [0,100]; moreover the Math.min cap bounds the adjusted
score by 100 for every base whatsoever. -/
theorem compositeScore_range (symbol : String) (ticker : Ticker)
    (fundingDict : String → Option FundingInfo) (klines : List Kline) (rsi : ℚ)
    (adxResult : Option ADXResult) (atr : Option ℚ)
    (ma50Data ma200Data : Option (List TimeValue)) (vpvrPOC : Option VPVRPOC)
    (now : ℤ) (timingScore : ℚ)
    (hqv : 0 ≤ ticker.quoteVolume) (ht0 : 0 ≤ timingScore) (ht1 : timingScore ≤ 1) :
    (0 ≤ applyTimingAdjustment (calculateShortScore symbol ticker fundingDict klines rsi
        adxResult atr ma50Data ma200Data vpvrPOC now) timingScore ∧
      applyTimingAdjustment (calculateShortScore symbol ticker fundingDict klines rsi
        adxResult atr ma50Data ma200Data vpvrPOC now) timingScore ≤ 100) ∧
    (∀ base : ℚ, applyTimingAdjustment base timingScore ≤ 100) := by
  refine ⟨⟨?_, ?_⟩, ?_⟩
  · rw [applyTimingAdjustment, calculateShortScore]
    have h1 := vpvrScore_bounds (currentPriceOf klines ticker) vpvrPOC atr
    have h2 := adxScoreOf_bounds adxResult
    have h3 := rsiScoreOf_bounds rsi
    have h4 := fundingScoreOf_bounds ((fundingDict symbol).getD ⟨0, 0, none⟩) now
    have h5 := maScore_bounds (currentPriceOf klines ticker) ma50Data ma200Data
    have h6 := volumeScoreOf_bounds ticker.quoteVolume hqv
    apply le_min (by norm_num)
    nlinarith [h1.1, h2.1, h3.1, h4.1, h5.1, h6.1]
  · rw [applyTimingAdjustment]
    exact min_le_left _ _
  · intro base
    rw [applyTimingAdjustment]
    exact min_le_left _ _

def c2ticker : Ticker := ⟨0, 100⟩

/-- Witness for C2 at a concrete empty-data symbol with timing score 1/2. -/
theorem compositeScore_range_witness :
    ((0:ℚ) ≤ c2ticker.quoteVolume) ∧ ((0:ℚ) ≤ 1/2) ∧ ((1/2 : ℚ) ≤ 1) ∧
    (0 ≤ applyTimingAdjustment (calculateShortScore "BTCUSDT" c2ticker (fun _ => none) [] 50
        none none none none none 0) (1/2) ∧
      applyTimingAdjustment (calculateShortScore "BTCUSDT" c2ticker (fun _ => none) [] 50
        none none none none none 0) (1/2) ≤ 100) :=
  ⟨by norm_num [c2ticker], by norm_num, by norm_num,
    (compositeScore_range "BTCUSDT" c2ticker (fun _ => none) [] 50 none none none none none 0
      (1/2) (by norm_num [c2ticker]) (by norm_num) (by norm_num)).1⟩

theorem fundingPeriod_pos_interval (nextFundingTime : ℤ) (h : ℚ) (now : ℤ) (hh : 0 < h) :
    calculateFundingPeriod nextFundingTime (some h) now = h := by
  rw [calculateFundingPeriod]
  simp only [Option.getD_some]
  rw [if_pos hh]

/-- C1 (amended): the core functions are pure in their arguments together
with the ambient clock reading, here an explicit argument: when the
funding interval is explicitly provided and positive, calculateFundingPeriod
and calculateShortScore do not depend on the clock at all, and
computeTimingScore with an explicit kstNow never reads the clock. -/
theorem core_functions_clock_determinism :
    (∀ (nextFundingTime : ℤ) (h : ℚ) (now now2 : ℤ), 0 < h →
      calculateFundingPeriod nextFundingTime (some h) now =
        calculateFundingPeriod nextFundingTime (some h) now2) ∧
    (∀ (wp : Option WeeklyPattern) (dhp : Option DayHourPattern) (d now now2 : ClockDate),
      computeTimingScore wp dhp (some d) now = computeTimingScore wp dhp (some d) now2) ∧
    (∀ (symbol : String) (ticker : Ticker) (fundingDict : String → Option FundingInfo)
      (klines : List Kline) (rsi : ℚ) (adxResult : Option ADXResult) (atr : Option ℚ)
      (ma50Data ma200Data : Option (List TimeValue)) (vpvrPOC : Option VPVRPOC)
      (now now2 : ℤ) (h : ℚ),
      ((fundingDict symbol).getD ⟨0, 0, none⟩).fundingIntervalHours = some h → 0 < h →
      calculateShortScore symbol ticker fundingDict klines rsi adxResult atr
        ma50Data ma200Data vpvrPOC now =
      calculateShortScore symbol ticker fundingDict klines rsi adxResult atr
        ma50Data ma200Data vpvrPOC now2) := by
  refine ⟨?_, ?_, ?_⟩
  · intro nft h now now2 hh
    rw [fundingPeriod_pos_interval _ _ _ hh, fundingPeriod_pos_interval _ _ _ hh]
  · intro wp dhp d now now2
    cases wp <;> cases dhp <;> rfl
  · intro symbol ticker fundingDict klines rsi adxResult atr ma50Data ma200Data vpvrPOC
      now now2 h hfi hh
    have hkey : fundingScoreOf ((fundingDict symbol).getD ⟨0, 0, none⟩) now =
        fundingScoreOf ((fundingDict symbol).getD ⟨0, 0, none⟩) now2 := by
      rw [fundingScoreOf, fundingScoreOf, calculateHourlyFundingRate,
        calculateHourlyFundingRate, hfi, fundingPeriod_pos_interval _ _ _ hh,
        fundingPeriod_pos_interval _ _ _ hh]
    rw [calculateShortScore, calculateShortScore, hkey]

/-- Counterexample for C1 as stated: the funding-period inference on an
absent interval reads the clock; with the next funding time fixed at epoch
plus 8 hours, a clock reading one hour before infers a 1-hour cycle and a
clock reading four hours before infers a 4-hour cycle, so identical
function arguments yield different results. -/
theorem fundingPeriod_clock_cex :
    calculateFundingPeriod 28800000 none 25200000 ≠
      calculateFundingPeriod 28800000 none 14400000 := by
  rw [calculateFundingPeriod, calculateFundingPeriod]
  norm_num

/-- Witness for C1 with an explicit 8-hour interval and two clock values. -/
theorem core_functions_clock_determinism_witness :
    ((0:ℚ) < 8) ∧
    calculateFundingPeriod 0 (some 8) 0 = calculateFundingPeriod 0 (some 8) 3600000 :=
  ⟨by norm_num, core_functions_clock_determinism.1 0 8 0 3600000 (by norm_num)⟩
